import Mathlib

/-!
Verification of the website knowledge-base subsystem
(`backend/services/website_kb.py`) of the InsightGym repository.

Python strings are modelled as `List Char` (Python `len`, slicing and
`split` operate on code points, exactly as `List Char` operations do).
Floating-point vector components are modelled as real numbers.
The embedding provider, the site-settings database row and the two
persisted files are passed explicitly as parameters / state.
-/

namespace WebsiteKb

/-- Python truthiness-relevant whitespace test used by `str.strip`. -/
def wsB (c : Char) : Bool := c.isWhitespace

/-- Python `text.split('\n')`: split a character list on newline characters;
an empty input yields one empty piece, and `n` newlines yield `n + 1` pieces. -/
def splitNl (l : List Char) : List (List Char) :=
  l.foldr (fun c r => if c = '\n' then [] :: r else (c :: r.headI) :: r.tail) [[]]

/-- Python `s.strip()`: drop whitespace from both ends. -/
def trim (l : List Char) : List Char :=
  ((l.dropWhile wsB).reverse.dropWhile wsB).reverse

/-- The paragraph list of `_chunk_text` (line 68 of `website_kb.py`):
`[p.strip() for p in text.split('\n') if p.strip()]`. -/
def parags (text : List Char) : List (List Char) :=
  ((splitNl text).map trim).filter (fun p => p ≠ [])

/-- Python newline-join of a list of strings, on character lists. -/
def joinNl : List (List Char) → List Char
  | [] => []
  | [c] => c
  | c :: c2 :: cs => c ++ '\n' :: joinNl (c2 :: cs)

/-- Fuel-driven worker for `hardSplit`; the fuel is an upper bound on the
number of slices still to cut, so `fuel = p.length` always suffices. -/
def hardSplitGo (maxc : Nat) : Nat → List Char → List (List Char)
  | _, [] => []
  | 0, _ :: _ => []
  | fuel + 1, c :: cs =>
    if maxc = 0 then []
    else (c :: cs).take maxc :: hardSplitGo maxc fuel ((c :: cs).drop maxc)

/-- The hard split of an over-long paragraph (lines 81-82):
`for i in range(0, len(p), max_chars): chunks.append(p[i:i + max_chars])`.
The source raises `ValueError` when `max_chars = 0` (empty `range` step);
that case is mapped to `[]` and never arises in the claims (`max_chars ≥ 1`). -/
def hardSplit (maxc : Nat) (p : List Char) : List (List Char) :=
  hardSplitGo maxc p.length p

/-- The paragraph-accumulation loop of `_chunk_text` (lines 70-85).
`paras` is the remaining paragraph list, `chunks` the chunks emitted so far,
`cur` the running buffer (`current`). -/
def chunkGo (maxc : Nat) : List (List Char) → List (List Char) → List Char →
    List (List Char)
  | [], chunks, cur => if cur = [] then chunks else chunks ++ [cur]
  | p :: ps, chunks, cur =>
    if cur.length + p.length + 1 ≤ maxc then
      chunkGo maxc ps chunks (trim (cur ++ '\n' :: p))
    else
      let chunks' := if cur = [] then chunks else chunks ++ [cur]
      if p.length ≤ maxc then
        chunkGo maxc ps chunks' p
      else
        chunkGo maxc ps (chunks' ++ hardSplit maxc p) []

/-- The pre-overlap chunk list of `_chunk_text` (lines 66-85): the value of
`chunks` just before the overlap step. -/
def chunkCore (text : List Char) (maxc : Nat) : List (List Char) :=
  if text = [] then [] else chunkGo maxc (parags text) [] []

/-- The overlap tail (line 95): `prev[-overlap:] if len(prev) > overlap else prev`. -/
def tailOf (ov : Nat) (prev : List Char) : List Char :=
  if ov < prev.length then prev.drop (prev.length - ov) else prev

/-- The overlap pass over the chunk list (lines 90-96); `prev` is the previous
PRE-overlap chunk (`chunks[i - 1]`). -/
def overlapGo (ov : Nat) : List Char → List (List Char) → List (List Char)
  | _, [] => []
  | prev, c :: cs => trim (tailOf ov prev ++ '\n' :: c) :: overlapGo ov c cs

/-- Lines 88-97: the first chunk is kept as is, later chunks get the previous
chunk's tail prepended with a newline, then are stripped. -/
def applyOverlap (ov : Nat) : List (List Char) → List (List Char)
  | [] => []
  | c0 :: rest => c0 :: overlapGo ov c0 rest

/-- `_chunk_text(text, max_chars, overlap)` (lines 65-98); source defaults are
`max_chars = 1200`, `overlap = 150`. -/
def chunkText (text : List Char) (maxc ov : Nat) : List (List Char) :=
  let cs := chunkCore text maxc
  if 0 < ov ∧ 1 < cs.length then applyOverlap ov cs else cs

/-! ### Data model: persisted state, embedding provider, index payload -/

/-- Outcome of `_generate_embedding` (lines 101-124): `noKey` models the
`ValueError` raised when no API key is configured, `provider` the
`RuntimeError` wrapping any provider failure. -/
inductive EmbedError where
  | noKey : EmbedError
  | provider : EmbedError
deriving DecidableEq, Repr

/-- Whether an `Except` value is an error (a raised Python exception). -/
def isErrB {ε α : Type} : Except ε α → Bool
  | .error _ => true
  | .ok _ => false

/-- One element of the persisted index's `chunks` array, as parsed back from
JSON: each field may be absent (`search_kb` reads them with `.get`).
`build_kb_index` writes all three fields (lines 133-137). -/
structure ChunkRec where
  id : Option ℤ
  text : Option (List Char)
  embedding : Option (List ℝ)

/-- The persisted index payload (lines 138-142):
`{'updated_at': ..., 'count': ..., 'chunks': [...]}`. -/
structure IndexPayload where
  updated_at : List Char
  count : ℤ
  chunks : List ChunkRec

/-- The persisted index file content: a JSON-parseable payload or garbage that
`json.loads` rejects. A missing or empty file is `none` at the `KBState` level. -/
inductive IndexBlob where
  | parseable : IndexPayload → IndexBlob
  | garbage : IndexBlob

/-- The durable state of the subsystem: the source file `website_kb_source.md`
and the index file `website_kb_index.json` (`none` = missing or empty file). -/
structure KBState where
  sourceFile : Option (List Char)
  indexFile : Option IndexBlob

/-- The optional `SiteSettings` database row read by `get_kb_source_text`
(lines 36-57). A `None`/empty field is modelled as the empty string, matching
the Python truthiness test `if row.field:`. -/
structure SiteSettingsRow where
  app_description_fa : List Char
  app_description_en : List Char
  contact_email : List Char
  contact_phone : List Char
  address_fa : List Char
  address_en : List Char

/-- `get_kb_source_text()` (lines 33-58). `row = none` covers both "no
`SiteSettings` row" and any exception in the best-effort block (silently
ignored). `sourceFile = none` models a missing file (`_read_file` returns `''`). -/
def getKbSourceText (sourceFile : Option (List Char)) (row : Option SiteSettingsRow) :
    List Char :=
  let base := sourceFile.getD []
  match row with
  | none => base
  | some r =>
    let parts :=
      (if r.app_description_fa ≠ [] then
        ["App description (fa): ".toList ++ r.app_description_fa] else []) ++
      (if r.app_description_en ≠ [] then
        ["App description (en): ".toList ++ r.app_description_en] else []) ++
      (if r.contact_email ≠ [] then
        ["Contact email: ".toList ++ r.contact_email] else []) ++
      (if r.contact_phone ≠ [] then
        ["Contact phone: ".toList ++ r.contact_phone] else []) ++
      (if r.address_fa ≠ [] then
        ["Address (fa): ".toList ++ r.address_fa] else []) ++
      (if r.address_en ≠ [] then
        ["Address (en): ".toList ++ r.address_en] else [])
    if parts ≠ [] then base ++ "\n\n".toList ++ joinNl parts else base

/-- `save_kb_source_text(content)` (lines 61-62): overwrite the source file. -/
def saveKbSourceText (content : List Char) (st : KBState) : KBState :=
  { st with sourceFile := some content }

/-- The embedding loop of `build_kb_index` (lines 130-137): embed each chunk in
order, assigning 1-based ids; the first raised exception aborts the loop. -/
def embedAll (embed : List Char → Except EmbedError (List ℝ)) :
    List (List Char) → ℤ → Except EmbedError (List ChunkRec)
  | [], _ => .ok []
  | c :: cs, i =>
    match embed c with
    | .error e => .error e
    | .ok v =>
      match embedAll embed cs (i + 1) with
      | .error e => .error e
      | .ok rest => .ok ({ id := some i, text := some c, embedding := some v } :: rest)

/-- `build_kb_index()` (lines 127-144): read the source (with site-settings
augmentation), chunk it with the default parameters, embed every chunk, and
only then persist the whole payload. Returns the raised exception or the
payload, together with the resulting durable state. -/
def buildKbIndex (embed : List Char → Except EmbedError (List ℝ))
    (row : Option SiteSettingsRow) (now : List Char) (st : KBState) :
    Except EmbedError IndexPayload × KBState :=
  let text := getKbSourceText st.sourceFile row
  let chunks := chunkText text 1200 150
  match embedAll embed chunks 1 with
  | .error e => (.error e, st)
  | .ok ichunks =>
    let payload : IndexPayload :=
      { updated_at := now, count := (ichunks.length : ℤ), chunks := ichunks }
    (.ok payload, { st with indexFile := some (.parseable payload) })

/-- `load_kb_index()` (lines 147-154): `none` for a missing/empty file and for
a JSON-undecodable blob, otherwise the parsed payload. -/
def loadKbIndex (st : KBState) : Option IndexPayload :=
  match st.indexFile with
  | none => none
  | some .garbage => none
  | some (.parseable p) => some p

/-! ### Cosine similarity and search -/

/-- `sum(x * y for x, y in zip(a, b))` (line 160). -/
noncomputable def dotPy (a b : List ℝ) : ℝ := ((a.zip b).map fun p => p.1 * p.2).sum

/-- `sum(x * x for x in a)` (the radicand of lines 161-162). -/
noncomputable def sumSq (a : List ℝ) : ℝ := (a.map fun x => x * x).sum

/-- `_cosine_similarity(a, b)` (lines 157-165): `0.0` when either vector is
empty or the lengths differ, `0.0` when either norm is zero, and the
normalised dot product otherwise. -/
noncomputable def cosineSim (a b : List ℝ) : ℝ :=
  if a = [] ∨ b = [] ∨ a.length ≠ b.length then 0
  else
    let na := Real.sqrt (sumSq a)
    let nb := Real.sqrt (sumSq b)
    if na = 0 ∨ nb = 0 then 0 else dotPy a b / (na * nb)

/-- The score of one chunk record against the query embedding (line 178):
`_cosine_similarity(q_embed, ch.get('embedding') or [])`. -/
noncomputable def chunkScore (q : List ℝ) (ch : ChunkRec) : ℝ :=
  cosineSim q (ch.embedding.getD [])

/-- The scored pair list built by lines 176-179. -/
noncomputable def scoredOf (idx : IndexPayload) (q : List ℝ) : List (ℝ × ChunkRec) :=
  idx.chunks.map fun ch => (chunkScore q ch, ch)

/-- Stable descending insertion: the new element passes over strictly greater
scores and lands in front of the first element whose score is `≤` its own. -/
noncomputable def insertDesc (x : ℝ × ChunkRec) :
    List (ℝ × ChunkRec) → List (ℝ × ChunkRec)
  | [] => [x]
  | y :: ys => if y.1 ≤ x.1 then x :: y :: ys else y :: insertDesc x ys

/-- `scored.sort(key=lambda x: x[0], reverse=True)` (line 180): Python's sort
is stable, and a stable descending sort is extensionally the stable insertion
sort below (equal-score elements keep their original relative order). -/
noncomputable def sortDesc : List (ℝ × ChunkRec) → List (ℝ × ChunkRec)
  | [] => []
  | x :: xs => insertDesc x (sortDesc xs)

/-- One returned result dict (lines 183-187): `score`, `text` (default `''`),
`id` (default `None`). -/
structure SearchResult where
  score : ℝ
  text : List Char
  id : Option ℤ

/-- Lines 183-187: build a result record from a scored pair. -/
noncomputable def mkResult (s : ℝ) (ch : ChunkRec) : SearchResult :=
  { score := s, text := ch.text.getD [], id := ch.id }

/-- `search_kb(query, top_k)` (lines 168-188). The outcome of embedding the
query (`_generate_embedding(query)`, line 173) is passed as `qe`; the
surrounding `try/except` maps any raised error to `[]`. `tk` is Python's
`top_k` argument (default 3); the slice bound is `max(1, min(top_k, 10))`. -/
noncomputable def searchKb (st : KBState) (qe : Except EmbedError (List ℝ))
    (tk : ℤ) : List SearchResult :=
  match loadKbIndex st with
  | none => []
  | some idx =>
    match idx.chunks with
    | [] => []
    | _ :: _ =>
      match qe with
      | .error _ => []
      | .ok q =>
        ((sortDesc (scoredOf idx q)).take (max 1 (min tk 10)).toNat).map
          fun p => mkResult p.1 p.2

/-! ### Definitions used only to state claims -/

/-- Ordering on result ids claimed by the spec for tie-breaking: ascending on
present ids, vacuous when an id is absent. -/
def idAsc : Option ℤ → Option ℤ → Prop
  | some i, some j => i ≤ j
  | _, _ => True

/-- The result ordering asserted by claim C6: strictly greater score first,
ties broken by ascending chunk id. -/
def resOrder (r1 r2 : SearchResult) : Prop :=
  r2.score < r1.score ∨ (r1.score = r2.score ∧ idAsc r1.id r2.id)

/-- Whether a scored pair carries the score `s` (used to state sort stability). -/
noncomputable def sameScore (s : ℝ) (p : ℝ × ChunkRec) : Bool := decide (p.1 = s)

/-- Modelled from claim C4's words: each chunk of `_chunk_text`'s output
"minus its prepended overlap prefix, for chunks after the first", the prefix
being the previous pre-overlap chunk's overlap tail plus the joining newline;
when the overlap step does not run, the chunks themselves. -/
def nonOverlapContents (text : List Char) (maxc ov : Nat) : List (List Char) :=
  let pre := chunkCore text maxc
  if 0 < ov ∧ 1 < pre.length then
    match pre with
    | [] => []
    | c0 :: rest =>
      c0 :: List.zipWith (fun o prevC => o.drop ((tailOf ov prevC).length + 1))
        (overlapGo ov c0 rest) (c0 :: rest)
  else pre

/-- The site-settings collaborator contributes no augmentation line: either it
is unavailable (no row / any exception) or every field is falsy. -/
def rowContributesNothing : Option SiteSettingsRow → Prop
  | none => True
  | some r =>
    r.app_description_fa = [] ∧ r.app_description_en = [] ∧
    r.contact_email = [] ∧ r.contact_phone = [] ∧
    r.address_fa = [] ∧ r.address_en = []

/-! ### Helper lemmas about the hard split -/

theorem hardSplitGo_flatten (maxc : Nat) (hm : maxc ≠ 0) :
    ∀ (fuel : Nat) (p : List Char), p.length ≤ fuel →
      (hardSplitGo maxc fuel p).flatten = p := by
  intro fuel
  induction fuel with
  | zero =>
    intro p hp
    cases p with
    | nil => rfl
    | cons c cs => simp at hp
  | succ n ih =>
    intro p hp
    cases p with
    | nil => rfl
    | cons c cs =>
      have hp' : cs.length + 1 ≤ n + 1 := by simpa using hp
      simp only [hardSplitGo, if_neg hm, List.flatten]
      rw [ih ((c :: cs).drop maxc)
        (by simp only [List.length_drop, List.length_cons]; omega)]
      exact List.take_append_drop maxc (c :: cs)

theorem hardSplit_flatten (maxc : Nat) (p : List Char) (hm : maxc ≠ 0) :
    (hardSplit maxc p).flatten = p :=
  hardSplitGo_flatten maxc hm p.length p le_rfl

theorem hardSplitGo_length_le (maxc : Nat) :
    ∀ (fuel : Nat) (p : List Char) (s : List Char),
      s ∈ hardSplitGo maxc fuel p → s.length ≤ maxc := by
  intro fuel
  induction fuel with
  | zero =>
    intro p s hs
    cases p <;> simp [hardSplitGo] at hs
  | succ n ih =>
    intro p s hs
    cases p with
    | nil => simp [hardSplitGo] at hs
    | cons c cs =>
      by_cases hm : maxc = 0
      · simp [hardSplitGo, hm] at hs
      · simp only [hardSplitGo, if_neg hm, List.mem_cons] at hs
        rcases hs with h | h
        · subst h; simp
        · exact ih _ _ h

theorem hardSplit_length_le (maxc : Nat) (p s : List Char)
    (hs : s ∈ hardSplit maxc p) : s.length ≤ maxc :=
  hardSplitGo_length_le maxc p.length p s hs

/-! ### Helper lemmas about the accumulation loop -/

theorem chunkGo_mono (maxc : Nat) :
    ∀ (paras chunks : List (List Char)) (cur c : List Char),
      c ∈ chunks → c ∈ chunkGo maxc paras chunks cur := by
  intro paras
  induction paras with
  | nil =>
    intro chunks cur c hc
    simp only [chunkGo]
    split <;> simp [hc]
  | cons p ps ih =>
    intro chunks cur c hc
    simp only [chunkGo]
    split
    · exact ih _ _ _ hc
    · split
      · apply ih
        split <;> simp [hc]
      · apply ih
        rw [List.mem_append]
        left
        split <;> simp [hc]

theorem chunkGo_hardSplit_sub (maxc : Nat) :
    ∀ (paras chunks : List (List Char)) (cur p : List Char),
      p ∈ paras → maxc < p.length →
      ∀ s ∈ hardSplit maxc p, s ∈ chunkGo maxc paras chunks cur := by
  intro paras
  induction paras with
  | nil => intro _ _ _ hp; simp at hp
  | cons q ps ih =>
    intro chunks cur p hp hlen s hs
    rcases List.mem_cons.mp hp with h | h
    · subst h
      simp only [chunkGo]
      rw [if_neg (by omega)]
      rw [if_neg (by omega)]
      apply chunkGo_mono
      rw [List.mem_append]
      right
      exact hs
    · simp only [chunkGo]
      split
      · exact ih _ _ _ h hlen s hs
      · split <;> exact ih _ _ _ h hlen s hs

theorem parags_nil : parags [] = [] := rfl

end WebsiteKb

open WebsiteKb

/-! ## The claims -/

/-- C1, counterexample. At `text = "abcdefgh"`, `max_chars = 3`,
`overlap = 2`: the paragraph `"abcdefgh"` exceeds `max_chars` and is
hard-split into `["abc", "def", "gh"]`, but the overlap step is NOT bypassed
for the slices: the slice `"def"` does not occur in the output of
`_chunk_text`, which instead contains `"bc\ndef"` — the slice with the
overlap prefix `"bc" + "\n"` (taken from the preceding chunk) prepended. -/
theorem c1_counterexample :
    "abcdefgh".toList ∈ parags "abcdefgh".toList ∧
    3 < "abcdefgh".toList.length ∧
    "def".toList ∈ hardSplit 3 "abcdefgh".toList ∧
    "def".toList ∉ chunkText "abcdefgh".toList 3 2 ∧
    "bc\ndef".toList ∈ chunkText "abcdefgh".toList 3 2 := by decide

/-- C1, amended: a paragraph longer than `max_chars` is hard-split into
slices of at most `max_chars` characters whose concatenation restores the
paragraph, and each slice is emitted as its own chunk of the PRE-overlap
chunk sequence; the subsequent overlap step then applies to those slices like
to any other chunk (it is not bypassed), so a slice that is not the first
chunk reaches the final output with an overlap prefix prepended. -/
theorem c1_hard_split_slices (text : List Char) (maxc : Nat) (p : List Char)
    (hm : maxc ≠ 0) (hp : p ∈ parags text) (hlen : maxc < p.length) :
    (∀ s ∈ hardSplit maxc p, s ∈ chunkCore text maxc) ∧
    (hardSplit maxc p).flatten = p ∧
    (∀ s ∈ hardSplit maxc p, s.length ≤ maxc) := by
  refine ⟨?_, hardSplit_flatten maxc p hm, fun s hs => hardSplit_length_le maxc p s hs⟩
  intro s hs
  have ht : text ≠ [] := by
    intro h
    rw [h, parags_nil] at hp
    exact absurd hp (List.not_mem_nil p)
  unfold chunkCore
  rw [if_neg ht]
  exact chunkGo_hardSplit_sub maxc (parags text) [] [] p hp hlen s hs

/-- C1, witness: the amended theorem applied at the counterexample's input. -/
theorem c1_witness :
    "abcdefgh".toList ∈ parags "abcdefgh".toList ∧
    "def".toList ∈ chunkCore "abcdefgh".toList 3 ∧
    (hardSplit 3 "abcdefgh".toList).flatten = "abcdefgh".toList := by
  have h := c1_hard_split_slices "abcdefgh".toList 3 "abcdefgh".toList
    (by decide) (by decide) (by decide)
  exact ⟨by decide, h.1 "def".toList (by decide), h.2.1⟩

/-! ### Helper lemmas about sums of squares and Cauchy-Schwarz -/

theorem sumSq_cons (x : ℝ) (xs : List ℝ) : sumSq (x :: xs) = x * x + sumSq xs := by
  simp [sumSq]

theorem sumSq_nonneg (a : List ℝ) : 0 ≤ sumSq a := by
  induction a with
  | nil => simp [sumSq]
  | cons x xs ih =>
    rw [sumSq_cons]
    have := mul_self_nonneg x
    linarith

theorem sumSq_pos (a : List ℝ) (h : ∃ x ∈ a, x ≠ 0) : 0 < sumSq a := by
  induction a with
  | nil => simp at h
  | cons x xs ih =>
    rw [sumSq_cons]
    rcases h with ⟨z, hz, hz0⟩
    rcases List.mem_cons.mp hz with h | h
    · subst h
      have h1 : 0 < z * z := mul_self_pos.mpr hz0
      have h2 := sumSq_nonneg xs
      linarith
    · have h1 := ih ⟨z, h, hz0⟩
      have h2 := mul_self_nonneg x
      linarith

theorem sumSq_zero (a : List ℝ) (h : ∀ x ∈ a, x = 0) : sumSq a = 0 := by
  induction a with
  | nil => simp [sumSq]
  | cons x xs ih =>
    rw [sumSq_cons, h x (by simp), ih (fun z hz => h z (by simp [hz]))]
    ring

theorem dotPy_nil_left (b : List ℝ) : dotPy [] b = 0 := by simp [dotPy]

theorem dotPy_nil_right (a : List ℝ) : dotPy a [] = 0 := by simp [dotPy]

theorem dotPy_cons (x y : ℝ) (xs ys : List ℝ) :
    dotPy (x :: xs) (y :: ys) = x * y + dotPy xs ys := by
  simp [dotPy]

theorem dotPy_self (a : List ℝ) : dotPy a a = sumSq a := by
  induction a with
  | nil => simp [dotPy, sumSq]
  | cons x xs ih => rw [dotPy_cons, sumSq_cons, ih]

/-- The inductive step of the list Cauchy-Schwarz inequality. -/
theorem cs_step (x y d A B : ℝ) (hA : 0 ≤ A) (hB : 0 ≤ B) (h : d ^ 2 ≤ A * B) :
    (x * y + d) ^ 2 ≤ (x * x + A) * (y * y + B) := by
  have habs : |d| ≤ Real.sqrt A * Real.sqrt B := by
    have h1 : Real.sqrt (d ^ 2) ≤ Real.sqrt (A * B) := Real.sqrt_le_sqrt h
    rwa [Real.sqrt_sq_eq_abs, Real.sqrt_mul hA] at h1
  have hd : d ≤ Real.sqrt A * Real.sqrt B := (abs_le.mp habs).2
  have hd' : -(Real.sqrt A * Real.sqrt B) ≤ d := (abs_le.mp habs).1
  have hsA : Real.sqrt A ^ 2 = A := Real.sq_sqrt hA
  have hsB : Real.sqrt B ^ 2 = B := Real.sq_sqrt hB
  have hxy1 : x * y ≤ |x * y| := le_abs_self _
  have hxy2 : -|x * y| ≤ x * y := neg_abs_le _
  have key : 2 * |x * y| * (Real.sqrt A * Real.sqrt B) ≤ x * x * B + A * (y * y) := by
    rcases abs_cases (x * y) with ⟨he, _⟩ | ⟨he, _⟩ <;> rw [he] <;>
      nlinarith [sq_nonneg (x * Real.sqrt B - y * Real.sqrt A),
        sq_nonneg (x * Real.sqrt B + y * Real.sqrt A)]
  have h2xyd : 2 * (x * y) * d ≤ 2 * |x * y| * (Real.sqrt A * Real.sqrt B) := by
    have p1 : 0 ≤ (|x * y| - x * y) * (Real.sqrt A * Real.sqrt B + d) :=
      mul_nonneg (by linarith) (by linarith)
    have p2 : 0 ≤ (|x * y| + x * y) * (Real.sqrt A * Real.sqrt B - d) :=
      mul_nonneg (by linarith) (by linarith)
    nlinarith [p1, p2]
  nlinarith [h2xyd, key, h]

/-- Cauchy-Schwarz for the comprehensions of `_cosine_similarity`:
`sum(x*y for zip)` squared is at most `sum(x*x) * sum(y*y)`. -/
theorem list_cauchy_schwarz (a : List ℝ) : ∀ b : List ℝ,
    (dotPy a b) ^ 2 ≤ sumSq a * sumSq b := by
  induction a with
  | nil =>
    intro b
    rw [dotPy_nil_left]
    simp [sumSq]
  | cons x xs ih =>
    intro b
    cases b with
    | nil =>
      rw [dotPy_nil_right]
      simp [sumSq]
    | cons y ys =>
      rw [dotPy_cons, sumSq_cons, sumSq_cons]
      exact cs_step x y (dotPy xs ys) (sumSq xs) (sumSq ys)
        (sumSq_nonneg xs) (sumSq_nonneg ys) (ih ys)

/-- Unfolding of `_cosine_similarity` when no guard fires. -/
theorem cosineSim_eq (a b : List ℝ) (ha : a ≠ []) (hb : b ≠ [])
    (hlen : a.length = b.length)
    (hna : Real.sqrt (sumSq a) ≠ 0) (hnb : Real.sqrt (sumSq b) ≠ 0) :
    cosineSim a b = dotPy a b / (Real.sqrt (sumSq a) * Real.sqrt (sumSq b)) := by
  unfold cosineSim
  rw [if_neg (by push_neg; exact ⟨ha, hb, hlen⟩)]
  simp only []
  rw [if_neg (by push_neg; exact ⟨hna, hnb⟩)]

/-- `_cosine_similarity` returns `0.0` whenever one of the two guards fires. -/
theorem cosineSim_guard (a b : List ℝ)
    (h : a = [] ∨ b = [] ∨ a.length ≠ b.length) : cosineSim a b = 0 := by
  unfold cosineSim
  rw [if_pos h]

/-- C5: for any two non-zero vectors of equal length the cosine similarity of
`_cosine_similarity` lies in `[-1, 1]`; a non-zero vector compared with itself
scores exactly `1`; and comparing any vector against a zero-length or all-zero
second vector scores `0` (real-number model of the float computation). -/
theorem c5_cosine_bounds :
    (∀ a b : List ℝ, a.length = b.length → (∃ x ∈ a, x ≠ 0) → (∃ x ∈ b, x ≠ 0) →
      -1 ≤ cosineSim a b ∧ cosineSim a b ≤ 1) ∧
    (∀ a : List ℝ, (∃ x ∈ a, x ≠ 0) → cosineSim a a = 1) ∧
    (∀ a b : List ℝ, b = [] ∨ (∀ x ∈ b, x = 0) → cosineSim a b = 0) := by
  refine ⟨?_, ?_, ?_⟩
  · intro a b hlen ha hb
    obtain ⟨xa, hxa, _⟩ := id ha
    obtain ⟨xb, hxb, _⟩ := id hb
    have hA : 0 < sumSq a := sumSq_pos a ha
    have hB : 0 < sumSq b := sumSq_pos b hb
    have hna : 0 < Real.sqrt (sumSq a) := Real.sqrt_pos.mpr hA
    have hnb : 0 < Real.sqrt (sumSq b) := Real.sqrt_pos.mpr hB
    have hprod : 0 < Real.sqrt (sumSq a) * Real.sqrt (sumSq b) := mul_pos hna hnb
    rw [cosineSim_eq a b (List.ne_nil_of_mem hxa) (List.ne_nil_of_mem hxb) hlen
      (ne_of_gt hna) (ne_of_gt hnb)]
    have habs : |dotPy a b| ≤ Real.sqrt (sumSq a) * Real.sqrt (sumSq b) := by
      have h1 : Real.sqrt ((dotPy a b) ^ 2) ≤ Real.sqrt (sumSq a * sumSq b) :=
        Real.sqrt_le_sqrt (list_cauchy_schwarz a b)
      rwa [Real.sqrt_sq_eq_abs, Real.sqrt_mul (le_of_lt hA)] at h1
    constructor
    · rw [le_div_iff₀ hprod]
      have := (abs_le.mp habs).1
      linarith
    · rw [div_le_one hprod]
      exact (abs_le.mp habs).2
  · intro a ha
    obtain ⟨xa, hxa, _⟩ := id ha
    have hA : 0 < sumSq a := sumSq_pos a ha
    have hna : 0 < Real.sqrt (sumSq a) := Real.sqrt_pos.mpr hA
    rw [cosineSim_eq a a (List.ne_nil_of_mem hxa) (List.ne_nil_of_mem hxa) rfl
      (ne_of_gt hna) (ne_of_gt hna)]
    rw [dotPy_self, Real.mul_self_sqrt (le_of_lt hA)]
    exact div_self (ne_of_gt hA)
  · intro a b h
    rcases h with h | h
    · exact cosineSim_guard a b (Or.inr (Or.inl h))
    · by_cases hg : a = [] ∨ b = [] ∨ a.length ≠ b.length
      · exact cosineSim_guard a b hg
      · push_neg at hg
        unfold cosineSim
        rw [if_neg (by push_neg; exact hg)]
        simp only []
        rw [if_pos]
        right
        rw [sumSq_zero b h, Real.sqrt_zero]

/-- C5, witness: the three parts of the theorem applied to concrete vectors. -/
theorem c5_witness :
    (-1 ≤ cosineSim [(1 : ℝ)] [-2] ∧ cosineSim [(1 : ℝ)] [-2] ≤ 1) ∧
    cosineSim [(1 : ℝ), 0] [1, 0] = 1 ∧
    cosineSim [(1 : ℝ), 1] [0, 0] = 0 := by
  obtain ⟨h1, h2, h3⟩ := c5_cosine_bounds
  refine ⟨h1 [1] [-2] rfl ⟨1, by simp⟩ ⟨-2, by norm_num⟩, ?_, ?_⟩
  · exact h2 [1, 0] ⟨1, by simp⟩
  · exact h3 [1, 1] [0, 0] (Or.inr (by intro x hx; simpa using hx))

/-- C9: `_cosine_similarity` maps any two vectors of unequal length to `0.0`
(dimension-mismatched vectors silently score zero; no error is raised). -/
theorem c9_length_mismatch_zero (a b : List ℝ) (h : a.length ≠ b.length) :
    cosineSim a b = 0 :=
  cosineSim_guard a b (Or.inr (Or.inr h))

/-- C9, witness: a 1-dimensional against a 2-dimensional vector scores `0`. -/
theorem c9_witness : cosineSim [(1 : ℝ)] [1, 2] = 0 :=
  c9_length_mismatch_zero [(1 : ℝ)] [1, 2] (by decide)

/-- C7: whatever the persisted state, if embedding the query raises (missing
credential or provider error), `search_kb` returns the empty list instead of
propagating the error. -/
theorem c7_embed_failure_empty (st : KBState) (tk : ℤ) (e : EmbedError) :
    searchKb st (.error e) tk = [] := by
  rcases h : loadKbIndex st with _ | idx
  · simp [searchKb, h]
  · rcases hc : idx.chunks with _ | ⟨c, cs⟩ <;> simp [searchKb, h, hc]

/-- If some chunk's embedding call raises, the embedding loop raises. -/
theorem embedAll_err (embed : List Char → Except EmbedError (List ℝ)) :
    ∀ (cs : List (List Char)) (i : ℤ),
      (∃ c ∈ cs, isErrB (embed c) = true) →
      isErrB (embedAll embed cs i) = true := by
  intro cs
  induction cs with
  | nil => intro i h; simp at h
  | cons c cs ih =>
    intro i h
    rcases h with ⟨z, hz, hzE⟩
    rcases List.mem_cons.mp hz with hh | hh
    · subst hh
      unfold embedAll
      cases he : embed z with
      | error e => simp [isErrB]
      | ok v => rw [he] at hzE; simp [isErrB] at hzE
    · unfold embedAll
      cases he : embed c with
      | error e => simp [isErrB]
      | ok v =>
        have hrec := ih (i + 1) ⟨z, hh, hzE⟩
        cases hr : embedAll embed cs (i + 1) with
        | error e => simp [isErrB]
        | ok l => rw [hr] at hrec; simp [isErrB] at hrec

/-- C3: if the embedding call fails for any chunk of the current source,
`build_kb_index` raises, the durable state is untouched (no partial index is
written), and a subsequent `load_kb_index` returns exactly what it returned
before the failed rebuild (the previous index, or `none` if none existed). -/
theorem c3_build_abandoned_on_embed_failure
    (embed : List Char → Except EmbedError (List ℝ))
    (row : Option SiteSettingsRow) (now : List Char) (st : KBState)
    (h : ∃ c ∈ chunkText (getKbSourceText st.sourceFile row) 1200 150,
      isErrB (embed c) = true) :
    isErrB (buildKbIndex embed row now st).1 = true ∧
    (buildKbIndex embed row now st).2 = st ∧
    loadKbIndex (buildKbIndex embed row now st).2 = loadKbIndex st := by
  have herr := embedAll_err embed _ 1 h
  simp only [buildKbIndex]
  cases hr : embedAll embed
      (chunkText (getKbSourceText st.sourceFile row) 1200 150) 1 with
  | error e => simp [isErrB]
  | ok l => rw [hr] at herr; simp [isErrB] at herr

/-- C3, witness: an always-failing provider on a one-chunk source leaves the
state (and hence any previously persisted index) unchanged. -/
theorem c3_witness :
    (∃ c ∈ chunkText (getKbSourceText (some "hi".toList) none) 1200 150,
      isErrB ((fun _ => (.error .noKey : Except EmbedError (List ℝ))) c) = true) ∧
    (buildKbIndex (fun _ => .error .noKey) none []
      ⟨some "hi".toList, some .garbage⟩).2 = ⟨some "hi".toList, some .garbage⟩ := by
  have h := c3_build_abandoned_on_embed_failure (fun _ => .error .noKey) none []
    ⟨some "hi".toList, some .garbage⟩ (by decide)
  exact ⟨by decide, h.2.1⟩

/-- C8, counterexample. The claim quantifies over every state of the
site-configuration collaborator, but `get_kb_source_text` appends the
collaborator's key-value lines to the saved source text: with an empty saved
source and a settings row whose contact email is `"x"`, the rebuilt index has
`count = 1` and one chunk `"Contact email: x"`, not `count = 0`. -/
theorem c8_counterexample :
    ¬ ∀ p : IndexPayload,
      (buildKbIndex (fun _ => (.ok [(1 : ℝ)] : Except EmbedError (List ℝ)))
        (some ⟨[], [], "x".toList, [], [], []⟩) []
        (saveKbSourceText [] ⟨none, none⟩)).1 = .ok p →
      p.count = 0 ∧ p.chunks = [] := by
  intro h
  have hc := h ⟨[], 1, [⟨some 1, some "Contact email: x".toList, some [(1 : ℝ)]⟩]⟩ rfl
  exact absurd hc.1 (by decide)

/-- C8, amended: after `save_kb_source_text("")`, `build_kb_index()` returns
an index with `count = 0` and `chunks = []` for every prior persisted state
and every embedding provider, PROVIDED the optional site-configuration
collaborator contributes no augmentation line (it is unavailable, or every
one of its six fields is falsy); a collaborator with any truthy field is
appended to the empty source and produces chunks. -/
theorem c8_empty_source_empty_index
    (embed : List Char → Except EmbedError (List ℝ))
    (row : Option SiteSettingsRow) (now : List Char) (st : KBState)
    (h : rowContributesNothing row) :
    (buildKbIndex embed row now (saveKbSourceText [] st)).1 =
      .ok ⟨now, 0, []⟩ := by
  have htext : getKbSourceText (saveKbSourceText [] st).sourceFile row = [] := by
    cases row with
    | none => rfl
    | some r =>
      obtain ⟨h1, h2, h3, h4, h5, h6⟩ := h
      simp [getKbSourceText, saveKbSourceText, h1, h2, h3, h4, h5, h6]
  simp only [buildKbIndex, htext]
  rfl

/-- C8, witness: the amended theorem at a concrete state, with a provider
that always fails — it is never consulted since there is nothing to embed. -/
theorem c8_witness :
    rowContributesNothing (none : Option SiteSettingsRow) ∧
    (buildKbIndex (fun _ => (.error .noKey : Except EmbedError (List ℝ))) none []
      (saveKbSourceText [] ⟨none, none⟩)).1 = .ok ⟨[], 0, []⟩ :=
  ⟨trivial, c8_empty_source_empty_index _ none [] ⟨none, none⟩ trivial⟩

/-! ### Helper lemmas about the stable descending sort -/

theorem insertDesc_length (x : ℝ × ChunkRec) (l : List (ℝ × ChunkRec)) :
    (insertDesc x l).length = l.length + 1 := by
  induction l with
  | nil => rfl
  | cons y ys ih =>
    unfold insertDesc
    split
    · simp
    · simp [ih]

theorem sortDesc_length (l : List (ℝ × ChunkRec)) :
    (sortDesc l).length = l.length := by
  induction l with
  | nil => rfl
  | cons x xs ih => simp [sortDesc, insertDesc_length, ih]

theorem mem_insertDesc (z x : ℝ × ChunkRec) (l : List (ℝ × ChunkRec))
    (h : z ∈ insertDesc x l) : z = x ∨ z ∈ l := by
  induction l with
  | nil => simp [insertDesc] at h; exact Or.inl h
  | cons y ys ih =>
    unfold insertDesc at h
    split at h
    · rcases List.mem_cons.mp h with h | h
      · exact Or.inl h
      · exact Or.inr h
    · rcases List.mem_cons.mp h with h | h
      · exact Or.inr (by simp [h])
      · rcases ih h with h | h
        · exact Or.inl h
        · exact Or.inr (by simp [h])

theorem mem_sortDesc (z : ℝ × ChunkRec) (l : List (ℝ × ChunkRec))
    (h : z ∈ sortDesc l) : z ∈ l := by
  induction l generalizing z with
  | nil => simp [sortDesc] at h
  | cons x xs ih =>
    unfold sortDesc at h
    rcases mem_insertDesc z x (sortDesc xs) h with h | h
    · simp [h]
    · exact List.mem_cons.mpr (Or.inr (ih z h))

theorem insertDesc_sorted (x : ℝ × ChunkRec) (l : List (ℝ × ChunkRec))
    (h : List.Pairwise (fun a b => b.1 ≤ a.1) l) :
    List.Pairwise (fun a b => b.1 ≤ a.1) (insertDesc x l) := by
  induction l with
  | nil => simp [insertDesc]
  | cons y ys ih =>
    rcases List.pairwise_cons.mp h with ⟨hy, hys⟩
    unfold insertDesc
    split
    · rename_i hle
      refine List.pairwise_cons.mpr ⟨?_, h⟩
      intro z hz
      rcases List.mem_cons.mp hz with h | h
      · subst h; exact hle
      · exact le_trans (hy z h) hle
    · rename_i hlt
      push_neg at hlt
      refine List.pairwise_cons.mpr ⟨?_, ih hys⟩
      intro z hz
      rcases mem_insertDesc z x ys hz with h | h
      · subst h; exact le_of_lt hlt
      · exact hy z h

theorem sortDesc_sorted (l : List (ℝ × ChunkRec)) :
    List.Pairwise (fun a b => b.1 ≤ a.1) (sortDesc l) := by
  induction l with
  | nil => simp [sortDesc]
  | cons x xs ih => exact insertDesc_sorted x (sortDesc xs) ih

theorem insertDesc_filter (s : ℝ) (x : ℝ × ChunkRec) (l : List (ℝ × ChunkRec)) :
    (insertDesc x l).filter (sameScore s) =
      if sameScore s x then x :: l.filter (sameScore s)
      else l.filter (sameScore s) := by
  induction l with
  | nil =>
    cases hsx : sameScore s x <;> simp [insertDesc, List.filter, hsx]
  | cons y ys ih =>
    unfold insertDesc
    split
    · cases hsx : sameScore s x <;> simp [List.filter_cons, hsx]
    · rename_i hlt
      push_neg at hlt
      rw [List.filter_cons, ih]
      cases hsx : sameScore s x with
      | true =>
        have hxs : x.1 = s := by simpa [sameScore] using hsx
        have hy : sameScore s y = false := by
          simp only [sameScore, decide_eq_false_iff_not]
          intro hys
          rw [← hxs] at hys
          exact absurd hys (ne_of_gt hlt)
        simp [hsx, hy, List.filter_cons]
      | false => simp [hsx, List.filter_cons]

theorem sortDesc_filter (s : ℝ) (l : List (ℝ × ChunkRec)) :
    (sortDesc l).filter (sameScore s) = l.filter (sameScore s) := by
  induction l with
  | nil => rfl
  | cons x xs ih =>
    unfold sortDesc
    rw [insertDesc_filter, List.filter_cons, ih]

/-- Unfolding of `search_kb` once the index is known to load. -/
theorem searchKb_some (st : KBState) (idx : IndexPayload)
    (h : loadKbIndex st = some idx) (qe : Except EmbedError (List ℝ)) (tk : ℤ) :
    searchKb st qe tk =
      match idx.chunks with
      | [] => []
      | _ :: _ =>
        match qe with
        | .error _ => []
        | .ok q =>
          ((sortDesc (scoredOf idx q)).take (max 1 (min tk 10)).toNat).map
            fun p => mkResult p.1 p.2 := by
  unfold searchKb
  rw [h]

/-- C2, counterexample. The claim quantifies over every integer `top_k`, but
`search_kb` slices with `max(1, min(top_k, 10))`: at `top_k = 0` on a
one-chunk index it still returns one result, exceeding
`min(top_k, count_of_chunks) = 0`. -/
theorem c2_counterexample :
    ((searchKb ⟨none, some (.parseable ⟨[], 1, [⟨some 1, some [], some []⟩]⟩)⟩
        (.ok [(1 : ℝ)]) 0).length : ℤ) = 1 ∧
    ¬ ((1 : ℤ) ≤ min 0
        (([(⟨some 1, some [], some []⟩ : ChunkRec)].length : ℤ))) := by
  constructor
  · rfl
  · decide

/-- C2, amended: for every persisted state whose index loads, every query
embedding outcome and every `top_k ≥ 1`, `search_kb` returns at most
`min(top_k, number of chunks)` results (for `top_k < 1` the slice bound
`max(1, min(top_k, 10))` still yields up to one result). -/
theorem c2_search_length_bound (st : KBState) (qe : Except EmbedError (List ℝ))
    (tk : ℤ) (htk : 1 ≤ tk) (idx : IndexPayload)
    (hload : loadKbIndex st = some idx) :
    ((searchKb st qe tk).length : ℤ) ≤ min tk (idx.chunks.length : ℤ) := by
  rw [searchKb_some st idx hload qe tk]
  rcases hc : idx.chunks with _ | ⟨c, cs⟩
  · simp
    omega
  · rcases qe with e | q
    · simp
      constructor <;> [omega; positivity]
    · have hlen : (((sortDesc (scoredOf idx q)).take
          (max 1 (min tk 10)).toNat).map fun p => mkResult p.1 p.2).length =
          min (max 1 (min tk 10)).toNat idx.chunks.length := by
        rw [List.length_map, List.length_take, sortDesc_length]
        simp [scoredOf]
      simp only [hlen, hc]
      push_cast [Nat.cast_min]
      omega

/-- C2, witness: the amended theorem at a concrete one-chunk index with
`top_k = 2`. -/
theorem c2_witness :
    (1 : ℤ) ≤ 2 ∧
    ((searchKb ⟨none, some (.parseable ⟨[], 1, [⟨some 1, some [], some []⟩]⟩)⟩
        (.ok [(1 : ℝ)]) 2).length : ℤ) ≤
      min 2 (([(⟨some 1, some [], some []⟩ : ChunkRec)].length : ℤ)) :=
  ⟨by decide,
    c2_search_length_bound ⟨none, some (.parseable ⟨[], 1,
      [⟨some 1, some [], some []⟩]⟩)⟩ (.ok [(1 : ℝ)]) 2 (by decide) _ rfl⟩

/-- C6, counterexample. The claim promises score ties broken by ascending
chunk id for every persisted index, but line 180 sorts only by score with a
stable sort: on an index whose chunk list holds id 2 before id 1 with
identical (empty) embeddings, both score `0` and the results keep the order
`[id 2, id 1]` — descending, not ascending, ids on a tie. -/
theorem c6_counterexample :
    ¬ List.Pairwise resOrder
      (searchKb ⟨none, some (.parseable ⟨[], 2,
          [⟨some 2, some [], some []⟩, ⟨some 1, some [], some []⟩]⟩)⟩
        (.ok [(1 : ℝ)]) 3) := by
  have h1 : chunkScore [(1 : ℝ)] ⟨some 2, some [], some []⟩ = 0 :=
    cosineSim_guard _ _ (Or.inr (Or.inl rfl))
  have h2 : chunkScore [(1 : ℝ)] ⟨some 1, some [], some []⟩ = 0 :=
    cosineSim_guard _ _ (Or.inr (Or.inl rfl))
  have hsort : sortDesc [((0 : ℝ), (⟨some 2, some [], some []⟩ : ChunkRec)),
      ((0 : ℝ), (⟨some 1, some [], some []⟩ : ChunkRec))] =
      [((0 : ℝ), (⟨some 2, some [], some []⟩ : ChunkRec)),
       ((0 : ℝ), (⟨some 1, some [], some []⟩ : ChunkRec))] := by
    simp [sortDesc, insertDesc]
  have hs : searchKb ⟨none, some (.parseable ⟨[], 2,
        [⟨some 2, some [], some []⟩, ⟨some 1, some [], some []⟩]⟩)⟩
        (.ok [(1 : ℝ)]) 3 =
      [mkResult 0 ⟨some 2, some [], some []⟩,
       mkResult 0 ⟨some 1, some [], some []⟩] := by
    have hstep : searchKb ⟨none, some (.parseable ⟨[], 2,
          [⟨some 2, some [], some []⟩, ⟨some 1, some [], some []⟩]⟩)⟩
          (.ok [(1 : ℝ)]) 3 =
        ((sortDesc [(chunkScore [(1 : ℝ)] ⟨some 2, some [], some []⟩,
            ⟨some 2, some [], some []⟩),
          (chunkScore [(1 : ℝ)] ⟨some 1, some [], some []⟩,
            ⟨some 1, some [], some []⟩)]).take 3).map
          fun p => mkResult p.1 p.2 := rfl
    rw [hstep, h1, h2, hsort]
    rfl
  rw [hs]
  intro hp
  have hr := (List.pairwise_cons.mp hp).1 (mkResult 0 ⟨some 1, some [], some []⟩)
    (by simp)
  rcases hr with hr | ⟨_, hr⟩
  · exact absurd hr (lt_irrefl 0)
  · have : (2 : ℤ) ≤ 1 := hr
    omega

/-- C6, amended: the results of `search_kb` are sorted in non-increasing
score order, and the sort it uses is stable: within each equal-score class
the original index order (insertion order of the chunk list, which is id
order for indexes written by `build_kb_index`) is preserved. -/
theorem c6_sorted_desc_stable :
    (∀ (st : KBState) (qe : Except EmbedError (List ℝ)) (tk : ℤ),
      List.Pairwise (fun r1 r2 => r2.score ≤ r1.score) (searchKb st qe tk)) ∧
    (∀ (l : List (ℝ × ChunkRec)) (s : ℝ),
      (sortDesc l).filter (sameScore s) = l.filter (sameScore s)) := by
  constructor
  · intro st qe tk
    rcases hload : loadKbIndex st with _ | idx
    · simp [searchKb, hload]
    · rw [searchKb_some st idx hload qe tk]
      rcases idx.chunks with _ | ⟨c, cs⟩
      · simp
      · rcases qe with e | q
        · simp
        · have hsorted := sortDesc_sorted (scoredOf idx q)
          have htake := List.Pairwise.sublist
            (List.take_sublist (max 1 (min tk 10)).toNat _) hsorted
          exact List.pairwise_map.mpr htake
  · exact fun l s => sortDesc_filter s l

/-- C10: `search_kb` is total on any parseable index: a chunk record whose
`embedding` is missing/null or the empty list scores `0.0` (via
`ch.get('embedding') or []` and the empty-vector guard), a missing `text`
defaults to the empty string and a missing `id` to null in the built result,
and every returned result is built by exactly this score-and-default
construction from some chunk of the index. -/
theorem c10_malformed_chunk_defaults (st : KBState) (idx : IndexPayload)
    (q : List ℝ) (tk : ℤ) (ch : ChunkRec)
    (hload : loadKbIndex st = some idx) (_hmem : ch ∈ idx.chunks) :
    ((ch.embedding = none ∨ ch.embedding = some []) → chunkScore q ch = 0) ∧
    (ch.text = none → (mkResult (chunkScore q ch) ch).text = []) ∧
    (ch.id = none → (mkResult (chunkScore q ch) ch).id = none) ∧
    (∀ r ∈ searchKb st (.ok q) tk, ∃ ch2 ∈ idx.chunks,
      r = mkResult (chunkScore q ch2) ch2) := by
  refine ⟨?_, ?_, ?_, ?_⟩
  · intro h
    have he : ch.embedding.getD [] = [] := by
      rcases h with h | h <;> rw [h] <;> rfl
    unfold chunkScore
    rw [he]
    exact cosineSim_guard _ _ (Or.inr (Or.inl rfl))
  · intro h
    simp [mkResult, h]
  · intro h
    simp [mkResult, h]
  · intro r hr
    rw [searchKb_some st idx hload _ tk] at hr
    rcases hc : idx.chunks with _ | ⟨c, cs⟩
    · rw [hc] at hr
      exact absurd hr (List.not_mem_nil r)
    · rw [hc] at hr
      obtain ⟨p, hp, hrp⟩ := List.mem_map.mp hr
      have hp2 : p ∈ sortDesc (scoredOf idx q) :=
        (List.take_sublist _ _).subset hp
      have hp3 : p ∈ scoredOf idx q := mem_sortDesc p _ hp2
      obtain ⟨ch2, hch2, hche⟩ := List.mem_map.mp hp3
      refine ⟨ch2, hc ▸ hch2, ?_⟩
      rw [← hrp, ← hche]

/-- C10, witness: the theorem applied to a one-chunk index whose chunk record
has no id, no text and no embedding. -/
theorem c10_witness :
    chunkScore [(1 : ℝ)] ⟨none, none, none⟩ = 0 ∧
    (mkResult (chunkScore [(1 : ℝ)] ⟨none, none, none⟩) ⟨none, none, none⟩).text
      = [] ∧
    (mkResult (chunkScore [(1 : ℝ)] ⟨none, none, none⟩) ⟨none, none, none⟩).id
      = none := by
  have h := c10_malformed_chunk_defaults
    ⟨none, some (.parseable ⟨[], 1, [⟨none, none, none⟩]⟩)⟩
    ⟨[], 1, [⟨none, none, none⟩]⟩ [(1 : ℝ)] 3 ⟨none, none, none⟩
    rfl (by simp)
  exact ⟨h.1 (Or.inl rfl), h.2.1 rfl, h.2.2.1 rfl⟩

/-! ### Helper lemmas about splitting, trimming and joining -/

theorem splitNl_cons (c : Char) (cs : List Char) :
    splitNl (c :: cs) = if c = '\n' then [] :: splitNl cs
      else (c :: (splitNl cs).headI) :: (splitNl cs).tail := rfl

theorem splitNl_ne_nil (l : List Char) : splitNl l ≠ [] := by
  cases l with
  | nil => simp [splitNl]
  | cons c cs => rw [splitNl_cons]; split <;> simp

theorem splitNl_append_nl (a b : List Char) :
    splitNl (a ++ '\n' :: b) = splitNl a ++ splitNl b := by
  induction a with
  | nil =>
    rw [List.nil_append, splitNl_cons, if_pos rfl]
    rfl
  | cons c cs ih =>
    rw [List.cons_append, splitNl_cons c (cs ++ '\n' :: b), splitNl_cons c cs]
    by_cases hc : c = '\n'
    · rw [if_pos hc, if_pos hc, ih, List.cons_append]
    · rw [if_neg hc, if_neg hc, ih]
      obtain ⟨x, xs, hx⟩ := List.exists_cons_of_ne_nil (splitNl_ne_nil cs)
      rw [hx]
      simp

theorem mem_splitNl_no_nl (l : List Char) :
    ∀ q ∈ splitNl l, '\n' ∉ q := by
  induction l with
  | nil =>
    intro q hq
    simp [splitNl] at hq
    simp [hq]
  | cons c cs ih =>
    intro q hq
    rw [splitNl_cons] at hq
    by_cases hc : c = '\n'
    · rw [if_pos hc] at hq
      rcases List.mem_cons.mp hq with h | h
      · simp [h]
      · exact ih q h
    · rw [if_neg hc] at hq
      obtain ⟨x, xs, hx⟩ := List.exists_cons_of_ne_nil (splitNl_ne_nil cs)
      rw [hx] at hq
      simp only [List.headI, List.tail, List.mem_cons] at hq
      rcases hq with h | h
      · subst h
        intro hmem
        rcases List.mem_cons.mp hmem with h | h
        · exact hc h.symm
        · exact ih x (by rw [hx]; simp) h
      · exact ih q (by rw [hx]; simp [h])

theorem splitNl_no_nl (q : List Char) (h : '\n' ∉ q) : splitNl q = [q] := by
  induction q with
  | nil => rfl
  | cons c cs ih =>
    have hc : c ≠ '\n' := fun hcc => h (by simp [hcc])
    rw [splitNl_cons, if_neg hc, ih (fun hm => h (by simp [hm]))]
    rfl

theorem dropWhile_headI_not (l : List Char) (h : l.dropWhile wsB ≠ []) :
    wsB (l.dropWhile wsB).headI = false := by
  induction l with
  | nil => simp at h
  | cons c cs ih =>
    by_cases hw : wsB c
    · rw [List.dropWhile_cons, if_pos hw] at h ⊢
      exact ih h
    · rw [List.dropWhile_cons, if_neg hw]
      simp only [List.headI]
      exact Bool.not_eq_true _ ▸ (by simpa using hw)

theorem trim_headI_not (l : List Char) (h : trim l ≠ []) :
    wsB (trim l).headI = false := by
  unfold trim at h ⊢
  set A := l.dropWhile wsB with hA
  have hsplit : A.reverse.takeWhile wsB ++ A.reverse.dropWhile wsB = A.reverse :=
    List.takeWhile_append_dropWhile wsB A.reverse
  have hA2 : A = (A.reverse.dropWhile wsB).reverse ++
      (A.reverse.takeWhile wsB).reverse := by
    calc A = A.reverse.reverse := (List.reverse_reverse A).symm
    _ = (A.reverse.takeWhile wsB ++ A.reverse.dropWhile wsB).reverse := by
        rw [hsplit]
    _ = (A.reverse.dropWhile wsB).reverse ++ (A.reverse.takeWhile wsB).reverse :=
        List.reverse_append _ _
  obtain ⟨b0, bs, hB⟩ := List.exists_cons_of_ne_nil h
  have hAne : A ≠ [] := by
    rw [hA2, hB]
    simp
  have hheadA : A.headI = b0 := by
    rw [hA2, hB]
    simp
  have hwa := dropWhile_headI_not l (by rw [← hA]; exact hAne)
  rw [← hA, hheadA] at hwa
  rw [hB]
  simpa using hwa

theorem trim_reverse (l : List Char) :
    (trim l).reverse = (l.dropWhile wsB).reverse.dropWhile wsB := by
  unfold trim
  rw [List.reverse_reverse]

theorem trim_revheadI_not (l : List Char) (h : trim l ≠ []) :
    wsB (trim l).reverse.headI = false := by
  rw [trim_reverse]
  apply dropWhile_headI_not
  intro hc
  apply h
  unfold trim
  rw [hc]
  rfl

theorem trim_noop (l : List Char) (hne : l ≠ []) (h1 : wsB l.headI = false)
    (h2 : wsB l.reverse.headI = false) : trim l = l := by
  obtain ⟨c, cs, rfl⟩ := List.exists_cons_of_ne_nil hne
  have hd : (c :: cs).dropWhile wsB = c :: cs := by
    rw [List.dropWhile_cons, if_neg]
    simp only [List.headI] at h1
    simp [h1]
  unfold trim
  rw [hd]
  have hrne : (c :: cs).reverse ≠ [] := by simp
  obtain ⟨d, ds, hrev⟩ := List.exists_cons_of_ne_nil hrne
  have hd2 : wsB d = false := by
    rw [hrev] at h2
    simpa using h2
  rw [hrev, List.dropWhile_cons, if_neg (by simp [hd2]), ← hrev,
    List.reverse_reverse]

theorem trim_trim (l : List Char) : trim (trim l) = trim l := by
  by_cases h : trim l = []
  · rw [h]
    rfl
  · exact trim_noop _ h (trim_headI_not l h) (trim_revheadI_not l h)

theorem trim_cons_nl (p : List Char) : trim ('\n' :: p) = trim p := by
  unfold trim
  rw [List.dropWhile_cons, if_pos (by decide)]

theorem trim_sublist (l : List Char) : List.Sublist (trim l) l := by
  unfold trim
  have h1 : List.Sublist ((l.dropWhile wsB).reverse.dropWhile wsB)
      (l.dropWhile wsB).reverse := List.dropWhile_sublist wsB
  have h2 := h1.reverse
  rw [List.reverse_reverse] at h2
  exact h2.trans (List.dropWhile_sublist wsB)

theorem trim_no_nl (l : List Char) (h : '\n' ∉ l) : '\n' ∉ trim l :=
  fun hm => h ((trim_sublist l).subset hm)

theorem parags_mem_good (text : List Char) :
    ∀ p ∈ parags text, p ≠ [] ∧ trim p = p ∧ '\n' ∉ p := by
  intro p hp
  unfold parags at hp
  have hp2 := List.of_mem_filter hp
  have hp3 := List.mem_of_mem_filter hp
  obtain ⟨q, hq, hqt⟩ := List.mem_map.mp hp3
  refine ⟨by simpa using hp2, ?_, ?_⟩
  · rw [← hqt, trim_trim]
  · rw [← hqt]
    exact trim_no_nl q (mem_splitNl_no_nl text q hq)

theorem parags_append_nl (a b : List Char) :
    parags (a ++ '\n' :: b) = parags a ++ parags b := by
  unfold parags
  rw [splitNl_append_nl, List.map_append, List.filter_append]

theorem parags_good (p : List Char) (h1 : p ≠ []) (h2 : trim p = p)
    (h3 : '\n' ∉ p) : parags p = [p] := by
  unfold parags
  rw [splitNl_no_nl p h3]
  simp [h2, h1]

theorem joinNl_single (p : List Char) : joinNl [p] = p := rfl

theorem joinNl_ne_nil (q : List Char) (rest : List (List Char)) (hq : q ≠ []) :
    joinNl (q :: rest) ≠ [] := by
  cases rest with
  | nil => exact hq
  | cons q2 rest2 => simp [joinNl, hq]

theorem joinNl_append_one (L : List (List Char)) (p : List Char) (h : L ≠ []) :
    joinNl (L ++ [p]) = joinNl L ++ '\n' :: p := by
  induction L with
  | nil => exact absurd rfl h
  | cons q rest ih =>
    cases rest with
    | nil => rfl
    | cons q2 rest2 =>
      have : (q :: q2 :: rest2) ++ [p] = q :: ((q2 :: rest2) ++ [p]) := rfl
      rw [this]
      have h2 : (q2 :: rest2) ++ [p] = q2 :: (rest2 ++ [p]) := rfl
      show q ++ '\n' :: joinNl ((q2 :: rest2) ++ [p]) =
        (q ++ '\n' :: joinNl (q2 :: rest2)) ++ '\n' :: p
      rw [ih (by simp)]
      simp

theorem joinNl_headI (q : List Char) (rest : List (List Char)) (hq : q ≠ []) :
    (joinNl (q :: rest)).headI = q.headI := by
  obtain ⟨c, cs, rfl⟩ := List.exists_cons_of_ne_nil hq
  cases rest with
  | nil => rfl
  | cons q2 rest2 => rfl

theorem parags_joinNl (L : List (List Char)) :
    parags (joinNl L) = (L.map parags).flatten := by
  induction L with
  | nil => rfl
  | cons c cs ih =>
    cases cs with
    | nil => simp [joinNl]
    | cons c2 cs2 =>
      have hj : joinNl (c :: c2 :: cs2) = c ++ '\n' :: joinNl (c2 :: cs2) := rfl
      rw [hj, parags_append_nl, ih]
      simp

theorem flatten_parags_good (L : List (List Char))
    (h : ∀ q ∈ L, q ≠ [] ∧ trim q = q ∧ '\n' ∉ q) :
    (L.map parags).flatten = L := by
  induction L with
  | nil => rfl
  | cons q rest ih =>
    obtain ⟨h1, h2, h3⟩ := h q (by simp)
    simp only [List.map_cons, List.flatten_cons]
    rw [parags_good q h1 h2 h3, ih (fun r hr => h r (by simp [hr]))]
    rfl

theorem trim_concat (xs ys : List Char) (hxs : xs ≠ [])
    (hx : wsB xs.headI = false) (hys : ys ≠ [])
    (hy : wsB ys.reverse.headI = false) :
    trim (xs ++ '\n' :: ys) = xs ++ '\n' :: ys := by
  apply trim_noop
  · simp
  · obtain ⟨c, cs, rfl⟩ := List.exists_cons_of_ne_nil hxs
    simpa using hx
  · rw [List.reverse_append, List.reverse_cons]
    obtain ⟨d, ds, hrev⟩ := List.exists_cons_of_ne_nil
      (by simpa using hys : ys.reverse ≠ [])
    rw [hrev]
    rw [hrev] at hy
    simpa using hy

theorem trim_join_append (L : List (List Char)) (p : List Char)
    (hL : ∀ q ∈ L, q ≠ [] ∧ trim q = q ∧ '\n' ∉ q)
    (hp : p ≠ [] ∧ trim p = p ∧ '\n' ∉ p) :
    trim (joinNl L ++ '\n' :: p) = joinNl (L ++ [p]) := by
  obtain ⟨hp1, hp2, _⟩ := hp
  cases L with
  | nil =>
    show trim ([] ++ '\n' :: p) = joinNl [p]
    rw [List.nil_append, trim_cons_nl, hp2, joinNl_single]
  | cons q rest =>
    obtain ⟨hq1, hq2, _⟩ := hL q (by simp)
    rw [joinNl_append_one _ p (by simp)]
    apply trim_concat
    · exact joinNl_ne_nil q rest hq1
    · rw [joinNl_headI q rest hq1]
      have := trim_headI_not q (by rw [hq2]; exact hq1)
      rwa [hq2] at this
    · exact hp1
    · have := trim_revheadI_not p (by rw [hp2]; exact hp1)
      rwa [hp2] at this

theorem joinNl_nil : joinNl [] = [] := rfl

/-- Invariant of the accumulation loop: when every paragraph fits within
`max_chars` (no hard split can fire) and the running buffer is the
newline-join of the already accumulated paragraphs `L`, the paragraphs of the
emitted chunks are exactly the already flushed ones, then `L`, then the
remaining input paragraphs. -/
theorem chunkGo_parags (maxc : Nat) :
    ∀ (paras chunks L : List (List Char)),
      (∀ p ∈ paras, (p ≠ [] ∧ trim p = p ∧ '\n' ∉ p) ∧ p.length ≤ maxc) →
      (∀ q ∈ L, q ≠ [] ∧ trim q = q ∧ '\n' ∉ q) →
      ((chunkGo maxc paras chunks (joinNl L)).map parags).flatten =
        (chunks.map parags).flatten ++ L ++ paras := by
  intro paras
  induction paras with
  | nil =>
    intro chunks L hp hL
    simp only [chunkGo]
    by_cases hLnil : L = []
    · subst hLnil
      rw [if_pos joinNl_nil]
      simp
    · obtain ⟨q, rest, rfl⟩ := List.exists_cons_of_ne_nil hLnil
      rw [if_neg (joinNl_ne_nil q rest (hL q (by simp)).1)]
      rw [List.map_append, List.flatten_append]
      simp only [List.map_cons, List.map_nil, List.flatten_cons,
        List.flatten_nil, List.append_nil]
      rw [parags_joinNl, flatten_parags_good _ hL]
  | cons p ps ih =>
    intro chunks L hp hL
    have hpG := (hp p (by simp)).1
    have hplen := (hp p (by simp)).2
    have hps : ∀ r ∈ ps, (r ≠ [] ∧ trim r = r ∧ '\n' ∉ r) ∧ r.length ≤ maxc :=
      fun r hr => hp r (by simp [hr])
    have hsingle : ∀ q ∈ [p], q ≠ [] ∧ trim q = q ∧ '\n' ∉ q := by
      intro q hq
      rw [List.mem_singleton.mp hq]
      exact hpG
    simp only [chunkGo]
    by_cases hfit : (joinNl L).length + p.length + 1 ≤ maxc
    · have hLp : ∀ q ∈ L ++ [p], q ≠ [] ∧ trim q = q ∧ '\n' ∉ q := by
        intro q hq
        rcases List.mem_append.mp hq with h | h
        · exact hL q h
        · rw [List.mem_singleton.mp h]
          exact hpG
      rw [if_pos hfit, trim_join_append L p hL hpG, ih chunks (L ++ [p]) hps hLp]
      simp
    · rw [if_neg hfit, if_pos hplen]
      by_cases hLnil : L = []
      · subst hLnil
        rw [if_pos joinNl_nil]
        have h := ih chunks [p] hps hsingle
        rw [joinNl_single] at h
        rw [h]
        simp
      · obtain ⟨q0, rest, rfl⟩ := List.exists_cons_of_ne_nil hLnil
        rw [if_neg (joinNl_ne_nil q0 rest (hL q0 (by simp)).1)]
        have h := ih (chunks ++ [joinNl (q0 :: rest)]) [p] hps hsingle
        rw [joinNl_single] at h
        rw [h, List.map_append, List.flatten_append]
        simp only [List.map_cons, List.map_nil, List.flatten_cons,
          List.flatten_nil, List.append_nil]
        rw [parags_joinNl, flatten_parags_good _ hL]
        simp

/-- C4, counterexample. At `text = "abcd"`, `max_chars = 3`, `overlap = 2`
the single paragraph is hard-split; stripping each output chunk of its
prepended overlap prefix leaves `["abc", "d"]`, and no way of reading their
concatenation reproduces the original paragraph sequence `["abcd"]`: the
newline-joined reading yields the paragraphs `["abc", "d"]` ≠ `["abcd"]`
(and a separator-free concatenation would instead merge distinct paragraphs
of multi-paragraph chunks). -/
theorem c4_counterexample :
    nonOverlapContents "abcd".toList 3 2 = ["abc".toList, "d".toList] ∧
    parags "abcd".toList = ["abcd".toList] ∧
    parags (joinNl (nonOverlapContents "abcd".toList 3 2)) ≠
      parags "abcd".toList := by
  refine ⟨by decide, by decide, by decide⟩

/-- C4, amended: PROVIDED no paragraph of the document exceeds `max_chars`
(so the hard split never fires), concatenating the chunks' non-overlap
content — i.e. the pre-overlap chunk sequence, each chunk being what remains
of an output chunk after removing the prepended overlap prefix together with
whatever whitespace the final strip dropped — joined by newlines,
reconstructs the original sequence of non-empty trimmed paragraphs without
loss. When a paragraph exceeds `max_chars`, its hard-split slices appear as
separate paragraph fragments and the reconstruction fails. -/
theorem c4_coverage (text : List Char) (maxc : Nat)
    (h : ∀ p ∈ parags text, p.length ≤ maxc) :
    parags (joinNl (chunkCore text maxc)) = parags text := by
  by_cases ht : text = []
  · subst ht
    rfl
  · unfold chunkCore
    rw [if_neg ht, parags_joinNl]
    have hinv := chunkGo_parags maxc (parags text) [] []
      (fun p hp => ⟨parags_mem_good text p hp, h p hp⟩)
      (by intro q hq; exact absurd hq (List.not_mem_nil q))
    rw [show joinNl [] = [] from rfl] at hinv
    rw [hinv]
    rfl

/-- C4, witness: a three-paragraph document split into two chunks; joining
the pre-overlap chunks with newlines restores the paragraph sequence. -/
theorem c4_witness :
    (∀ p ∈ parags "aaa\nbbb\nccc".toList, p.length ≤ 7) ∧
    chunkCore "aaa\nbbb\nccc".toList 7 =
      ["aaa\nbbb".toList, "ccc".toList] ∧
    parags (joinNl (chunkCore "aaa\nbbb\nccc".toList 7)) =
      parags "aaa\nbbb\nccc".toList := by
  refine ⟨by decide, by decide, c4_coverage "aaa\nbbb\nccc".toList 7 (by decide)⟩
